import Mathlib

/-!
Verification development for the benpm/cppmempool repository
(src/include/benpm/mempool.hpp).

The development shallowly embeds the two allocator engines of the header:

* the heterogeneous pooled allocator (class MemPool): chunks with a write
  cursor, an occupied-byte counter and a free-chunk link, carved out of
  blocks of 32 chunks (namespace MPV.Pool);
* the homogeneous dense-slot allocator (FlatAllocator, FlatItr, DynBitset,
  FlatHeap): slot blocks with a bit-per-slot occupancy set, a high-water
  mark (nextEmpty) and a candidate free-slot cursor (prevEmpty), a block
  list, a never-shrinking block-pointer table, and pointer-index
  translation by block-size-aligned address arithmetic (namespace MPV.Flat).

Machine integers (size_t) are modelled as Nat; the single place where
unsigned wrap-around is reachable (nextEmpty - 1u in Block::erase) is
modelled explicitly modulo 2^64.  Pointers are modelled as Nat addresses:
the n-th slot block ever obtained from the shared monotonic backing
resource sits at base address n * blockTotalBytes (the real resource hands
out distinct addresses aligned to blockTotalBytes and never reuses them,
since deallocate_bytes on a monotonic_buffer_resource is a no-op).
Operations whose C++ counterpart can hit undefined behaviour (null or
out-of-range dereference) return Option and yield none there.
-/

namespace MPV

namespace Flat

/-- Total byte size of one slot block (FlatAllocator::_blockTotalBytes = 4096u * 8u). -/
def blockTotalBytes : Nat := 32768

/-- Number of object slots per block:
((_blockTotalBytes - sizeof(BlockHeader)) / sizeof(T)) - 1u.
Parameters: sizeT models sizeof(T), hdrSize models sizeof(BlockHeader). -/
def blockLen (sizeT hdrSize : Nat) : Nat :=
  (blockTotalBytes - hdrSize) / sizeT - 1

/-- Modulus of size_t arithmetic. -/
def SZ : Nat := 2 ^ 64

/-- The size_t expression n - 1u, with unsigned wrap-around at n = 0. -/
def szsub1 (n : Nat) : Nat := (n + (SZ - 1)) % SZ

/-- Header state of one slot block (FlatAllocator::BlockHeader).
The occupancy bitset is modelled as the finite set of occupied indices. -/
structure BlockHdr where
  blockIdx : Nat
  nextEmpty : Nat
  prevEmpty : Nat
  used : Finset Nat
deriving DecidableEq

/-- Block::allocate: pick idx := prevEmpty; if idx equals nextEmpty,
increment nextEmpty; then advance prevEmpty by one if prevEmpty is below
the (updated) nextEmpty and slot prevEmpty+1 is unoccupied, else reset
prevEmpty to nextEmpty; finally mark idx occupied.  Returns the updated
header and the chosen slot index. -/
def blockAllocate (h : BlockHdr) : BlockHdr × Nat :=
  let idx := h.prevEmpty
  let ne := if idx = h.nextEmpty then h.nextEmpty + 1 else h.nextEmpty
  let pe := if h.prevEmpty < ne ∧ h.prevEmpty + 1 ∉ h.used then h.prevEmpty + 1 else ne
  (⟨h.blockIdx, ne, pe, insert idx h.used⟩, idx)

/-- The allocate step as worded by the specification (section 4.2,
free-slot heuristic): take the candidate index; if it equals the
high-water mark, extend the high-water mark by one; then advance the
candidate by exactly one position if that next position is within the
high-water mark (candidate + 1 at most the updated mark) and unoccupied,
otherwise reset the candidate to the high-water mark; mark the chosen
slot occupied. -/
def blockAllocateSpec (h : BlockHdr) : BlockHdr × Nat :=
  let idx := h.prevEmpty
  let ne := if idx = h.nextEmpty then h.nextEmpty + 1 else h.nextEmpty
  let pe := if h.prevEmpty + 1 ≤ ne ∧ h.prevEmpty + 1 ∉ h.used then h.prevEmpty + 1 else ne
  (⟨h.blockIdx, ne, pe, insert idx h.used⟩, idx)

/-- Block::erase at slot index i: clear the occupancy bit; if
nextEmpty - 1u == i (size_t arithmetic) shrink nextEmpty to i; in both
cases set prevEmpty to min(prevEmpty, i) - the min-update in the source
is unconditional. -/
def eraseHdr (h : BlockHdr) (i : Nat) : BlockHdr :=
  { h with
    used := h.used.erase i
    nextEmpty := if szsub1 h.nextEmpty = i then i else h.nextEmpty
    prevEmpty := min h.prevEmpty i }

/-- The erase step as claim C6 words it: clear the bit; if the freed slot
was exactly the last one below the high-water mark, shrink the mark to i;
otherwise (and only otherwise) set the candidate to min of its current
value and i. -/
def eraseHdrClaim (h : BlockHdr) (i : Nat) : BlockHdr :=
  if h.nextEmpty = i + 1 then
    { h with used := h.used.erase i, nextEmpty := i }
  else
    { h with used := h.used.erase i, prevEmpty := min h.prevEmpty i }

/-- State of one FlatAllocator instance.  blocks holds every block ever
obtained from the shared monotonic backing resource, in creation order
(the n-th created block sits at base address n * blockTotalBytes; the
resource never reuses addresses, so entries are kept even after
deleteCurBlock).  blockList holds the creation numbers of the live block
list (front = current block); blockPtrs models the never-shrinking block
pointer table (entries are creation numbers, i.e. base address divided by
blockTotalBytes). -/
structure FlatState where
  blocks : List BlockHdr
  blockList : List Nat
  blockPtrs : List Nat
deriving DecidableEq

/-- Address of the slot with in-block index i of the block created n-th:
base address plus the data offset (sizeof(BlockHeader)) plus i * sizeof(T). -/
def ptrOf (sizeT hdrSize c i : Nat) : Nat :=
  c * blockTotalBytes + hdrSize + i * sizeT

/-- FlatAllocator::newBlock: placement-new a Block whose blockIdx is the
current length of the block list, push it to the front of the block list
and append it to the block pointer table. -/
def flatNewBlock (s : FlatState) : FlatState :=
  let c := s.blocks.length
  { blocks := s.blocks ++ [⟨s.blockList.length, 0, 0, ∅⟩]
    blockList := c :: s.blockList
    blockPtrs := s.blockPtrs ++ [c] }

/-- FlatAllocator constructor state: one fresh block. -/
def flatInit : FlatState :=
  flatNewBlock ⟨[], [], []⟩

/-- Allocate one slot from the block at the front of the block list.
none models the undefined behaviour of calling front() on an empty list
or dereferencing a block pointer that was never created. -/
def allocCur (sizeT hdrSize : Nat) (s : FlatState) : Option (FlatState × Nat) :=
  match s.blockList.head? with
  | none => none
  | some cu =>
    match s.blocks[cu]? with
    | none => none
    | some h =>
      let r := blockAllocate h
      some ({ s with blocks := s.blocks.set cu r.1 }, ptrOf sizeT hdrSize cu r.2)

/-- FlatAllocator::allocate: if the current block is full
(nextEmpty at least _blockLen), create a new block first; then allocate
from the current block. -/
def flatAllocate (sizeT hdrSize : Nat) (s : FlatState) : Option (FlatState × Nat) :=
  match s.blockList.head? with
  | none => none
  | some cu =>
    match s.blocks[cu]? with
    | none => none
    | some h =>
      if blockLen sizeT hdrSize ≤ h.nextEmpty then
        allocCur sizeT hdrSize (flatNewBlock s)
      else
        allocCur sizeT hdrSize s

/-- FlatAllocator::deleteCurBlock: release the front block of the block
list (deallocate_bytes is a no-op on the monotonic resource, so the
blocks table of ever-created blocks is untouched; the block pointer table
never shrinks either). -/
def deleteCurBlock (s : FlatState) : FlatState :=
  { s with blockList := s.blockList.tail }

/-- FlatAllocator::deallocate: find the block by rounding the address
down to the block-size boundary, erase the slot, then release the block
if it is the current block, more than one block exists and the block is
now empty (nextEmpty == 0). -/
def flatDeallocate (sizeT hdrSize : Nat) (s : FlatState) (p : Nat) : Option FlatState :=
  let c := p / blockTotalBytes
  match s.blocks[c]? with
  | none => none
  | some h =>
    let i := (p - (c * blockTotalBytes + hdrSize)) / sizeT
    let h2 := eraseHdr h i
    let s2 := { s with blocks := s.blocks.set c h2 }
    match s2.blockList.head? with
    | none => none
    | some cu =>
      if c = cu ∧ 1 < s2.blockList.length ∧ h2.nextEmpty = 0 then
        some (deleteCurBlock s2)
      else
        some s2

/-- FlatAllocator::clear: drop the block list and the block pointer
table, then create one fresh block (the backing resource keeps every
previously created block). -/
def flatClear (s : FlatState) : FlatState :=
  flatNewBlock { s with blockList := [], blockPtrs := [] }

/-- FlatAllocator::getIdx: global index of a pointer, computed as
blockIdx * _blockLen + in-block offset, where the block is found by
address arithmetic (divide by blockTotalBytes). -/
def flatGetIdx (sizeT hdrSize : Nat) (s : FlatState) (p : Nat) : Option Nat :=
  let c := p / blockTotalBytes
  match s.blocks[c]? with
  | none => none
  | some h =>
    some (h.blockIdx * blockLen sizeT hdrSize + (p - (c * blockTotalBytes + hdrSize)) / sizeT)

/-- FlatAllocator::getPtr: pointer for a global object index, through the
block pointer table (blockPtrs lookup out of range models the undefined
vector access). -/
def flatGetPtr (sizeT hdrSize : Nat) (s : FlatState) (objIdx : Nat) : Option Nat :=
  match s.blockPtrs[objIdx / blockLen sizeT hdrSize]? with
  | none => none
  | some c =>
    some (ptrOf sizeT hdrSize c (objIdx % blockLen sizeT hdrSize))

/-- DynBitset: a growable byte vector addressed bit-wise.  numBytes is
the length of the byte vector (data.size()), bits the set of one bits in
the buffer, size the bit count the structure claims to hold. -/
structure DynBitset where
  numBytes : Nat
  bits : Finset Nat
  size : Nat
deriving DecidableEq

/-- std::vector resize on the byte buffer: kept bytes preserve their
bits, appended bytes are zero. -/
def vecResize (b : DynBitset) (nbytes : Nat) : DynBitset :=
  { b with
    numBytes := nbytes
    bits := b.bits.filter (fun i => i < 8 * min b.numBytes nbytes) }

/-- DynBitset::resize(size): resize the byte buffer to ceil(size / 8)
bytes and record the new bit size. -/
def dynResize (b : DynBitset) (sz : Nat) : DynBitset :=
  { vecResize b ((sz + 7) / 8) with size := sz }

/-- DynBitset constructed with a bit size. -/
def dynInit (sz : Nat) : DynBitset :=
  dynResize ⟨0, ∅, 0⟩ sz

/-- DynBitset::operator[]: read bit idx of byte idx / 8; none models the
out-of-range vector access. -/
def getBit (b : DynBitset) (idx : Nat) : Option Bool :=
  if idx / 8 < b.numBytes then some (idx ∈ b.bits) else none

/-- DynBitset::set. -/
def setBit (b : DynBitset) (idx : Nat) : Option DynBitset :=
  if idx / 8 < b.numBytes then some { b with bits := insert idx b.bits } else none

/-- DynBitset::unset. -/
def unsetBit (b : DynBitset) (idx : Nat) : Option DynBitset :=
  if idx / 8 < b.numBytes then some { b with bits := b.bits.erase idx } else none

/-- DynBitset::clear: data.clear() followed by data.resize(size, 0) - the
byte buffer is resized to size bytes (the old bit count!), all zero, and
the bit size becomes 0. -/
def dynClear (b : DynBitset) : DynBitset :=
  { numBytes := b.size, bits := ∅, size := 0 }

/-- State of a FlatHeap: issued counter (_size), presence bitset, and the
underlying FlatAllocator. -/
structure FlatHeapSt where
  sz : Nat
  used : DynBitset
  alloc : FlatState
deriving DecidableEq

/-- A freshly constructed FlatHeap: DynBitset used(4096), fresh allocator. -/
def freshHeap : FlatHeapSt :=
  { sz := 0, used := dynInit 4096, alloc := flatInit }

/-- FlatHeap::emplace: idx := size(); if size() >= used.size, resize used
to twice its bit size; set presence bit idx; bump _size; allocate a slot
and construct there.  Returns the new state and the object pointer. -/
def heapEmplace (sizeT hdrSize : Nat) (h : FlatHeapSt) : Option (FlatHeapSt × Nat) :=
  let idx := h.sz
  let u1 := if h.used.size ≤ h.sz then dynResize h.used (h.used.size * 2) else h.used
  match setBit u1 idx with
  | none => none
  | some u2 =>
    match flatAllocate sizeT hdrSize h.alloc with
    | none => none
    | some r => some ({ sz := h.sz + 1, used := u2, alloc := r.1 }, r.2)

/-- FlatHeap::erase(T* p, size_t idx): deallocate the slot and clear the
presence bit. -/
def heapErase (sizeT hdrSize : Nat) (h : FlatHeapSt) (p idx : Nat) : Option FlatHeapSt :=
  match flatDeallocate sizeT hdrSize h.alloc p with
  | none => none
  | some a2 =>
    match unsetBit h.used idx with
    | none => none
    | some u2 => some { h with alloc := a2, used := u2 }

/-- FlatHeap::erase(T* p): look the index up with getIdx, then erase. -/
def heapErasePtr (sizeT hdrSize : Nat) (h : FlatHeapSt) (p : Nat) : Option FlatHeapSt :=
  match flatGetIdx sizeT hdrSize h.alloc p with
  | none => none
  | some idx => heapErase sizeT hdrSize h p idx

/-- Erase the object at a global index: fetch the pointer with get(idx)
(FlatAllocator::getPtr) and erase it. -/
def heapEraseIdx (sizeT hdrSize : Nat) (h : FlatHeapSt) (idx : Nat) : Option FlatHeapSt :=
  match flatGetPtr sizeT hdrSize h.alloc idx with
  | none => none
  | some p => heapErasePtr sizeT hdrSize h p

/-- FlatHeap::contains(idx): the presence bit. -/
def heapContains (h : FlatHeapSt) (idx : Nat) : Option Bool :=
  getBit h.used idx

/-- FlatHeap::clear: used.clear(); alloc.clear(); _size = 0. -/
def heapClear (h : FlatHeapSt) : FlatHeapSt :=
  { sz := 0, used := dynClear h.used, alloc := flatClear h.alloc }

/-- FlatHeap::size. -/
def heapSize (h : FlatHeapSt) : Nat := h.sz

/-- A FlatItr cursor: the identity of the allocator instance it points
into (a pointer, modelled as a Nat identifier) and a signed index. -/
structure FlatItrM where
  alloc : Nat
  idx : Int
deriving DecidableEq

/-- FlatItr operator==: same allocator and same index. -/
def itrEqB (a b : FlatItrM) : Bool :=
  decide (a.alloc = b.alloc) && decide (a.idx = b.idx)

/-- FlatItr operator!=: same allocator and different index. -/
def itrNeB (a b : FlatItrM) : Bool :=
  decide (a.alloc = b.alloc) && !(decide (a.idx = b.idx))

/-- FlatItr operator<. -/
def itrLtB (a b : FlatItrM) : Bool :=
  decide (a.alloc = b.alloc) && decide (a.idx < b.idx)

/-- FlatItr operator>. -/
def itrGtB (a b : FlatItrM) : Bool :=
  decide (a.alloc = b.alloc) && decide (b.idx < a.idx)

/-- FlatItr operator<=, defined as the negation of operator>. -/
def itrLeB (a b : FlatItrM) : Bool := !(itrGtB a b)

/-- FlatItr operator>=, defined as the negation of operator<. -/
def itrGeB (a b : FlatItrM) : Bool := !(itrLtB a b)

end Flat

namespace Pool

/-- MemPool chunk byte capacity (chunkSize = 8192). -/
def chunkSize : Nat := 8192

/-- sizeof(Chunk) on x86-64: a pointer, a pointer and a size_t. -/
def chunkHdr : Nat := 24

/-- Chunks carved per block (chunksPerBlock = 32). -/
def chunksPerBlock : Nat := 32

/-- One chunk: write-cursor offset from the chunk base (head minus the
chunk address), link to the next free chunk (as a chunk identifier), and
the occupied byte count. -/
structure Chunk where
  headOff : Nat
  next : Option Nat
  used : Nat
deriving DecidableEq

/-- MemPool state: every chunk ever carved (identifier = position) and
the identifier of the current chunk. -/
structure PoolState where
  chunks : List Chunk
  curChunk : Option Nat
deriving DecidableEq

/-- MemPool::allocBlock: carve chunksPerBlock fresh chunks, thread them
by their next links (last one null), point the old current chunk's next
at the first new chunk if a current chunk exists, and make the first new
chunk current. -/
def allocBlock (s : PoolState) : PoolState :=
  let n := s.chunks.length
  let fresh := (List.range chunksPerBlock).map fun k =>
    ({ headOff := chunkHdr
       next := if k + 1 = chunksPerBlock then none else some (n + k + 1)
       used := chunkHdr } : Chunk)
  let chunks1 := s.chunks ++ fresh
  let chunks2 :=
    match s.curChunk with
    | none => chunks1
    | some cu =>
      match chunks1[cu]? with
      | none => chunks1
      | some ch => chunks1.set cu { ch with next := some n }
  { chunks := chunks2, curChunk := some n }

/-- MemPool constructor state: one block allocated. -/
def poolInit : PoolState :=
  allocBlock ⟨[], none⟩

/-- Chunk::make for an object of size S: placement-new at the write
cursor, advance the cursor and the occupied count by S.  Returns the new
pool state and the object pointer as (chunk identifier, offset). -/
def chunkConstruct (S : Nat) (s : PoolState) : Option (PoolState × Nat × Nat) :=
  match s.curChunk with
  | none => none
  | some cu =>
    match s.chunks[cu]? with
    | none => none
    | some ch =>
      some ({ s with chunks := s.chunks.set cu { ch with headOff := ch.headOff + S, used := ch.used + S } },
            cu, ch.headOff)

/-- MemPool::make for an object of size S: if head - chunk base + S is at
least chunkSize, advance - to the linked next free chunk if there is one,
else to the first chunk of a freshly allocated block; then construct in
the current chunk. -/
def poolMake (S : Nat) (s : PoolState) : Option (PoolState × Nat × Nat) :=
  match s.curChunk with
  | none => none
  | some cu =>
    match s.chunks[cu]? with
    | none => none
    | some ch =>
      if chunkSize ≤ ch.headOff + S then
        match ch.next with
        | none => chunkConstruct S (allocBlock s)
        | some nx => chunkConstruct S { s with curChunk := some nx }
      else
        chunkConstruct S s

/-- MemPool::make guarded by the static assertion of Chunk::make:
sizeof(T) <= chunkSize - sizeof(Chunk).  The guard depends only on the
object size (a compile-time constant), never on the pool state. -/
def poolMakeChecked (S : Nat) (s : PoolState) : Option (PoolState × Nat × Nat) :=
  if S ≤ chunkSize - chunkHdr then poolMake S s else none

end Pool

namespace Flat

/-- The conjunction of the two static assertions of FlatAllocator:
_blockTotalBytes >= sizeof(T) + sizeof(BlockHeader) and _blockLen > 0. -/
def flatFits (sizeT hdrSize : Nat) : Prop :=
  sizeT + hdrSize ≤ blockTotalBytes ∧ 1 ≤ blockLen sizeT hdrSize

instance (sizeT hdrSize : Nat) : Decidable (flatFits sizeT hdrSize) := by
  unfold flatFits
  infer_instance

/-- FlatAllocator::allocate guarded by the class-level static
assertions; the guard depends only on the type parameters. -/
def flatAllocateChecked (sizeT hdrSize : Nat) (s : FlatState) : Option (FlatState × Nat) :=
  if flatFits sizeT hdrSize then flatAllocate sizeT hdrSize s else none

/-- Invariant of one block header: every occupied slot lies below
nextEmpty (everything at or above the high-water mark is free), the
candidate cursor is at most the high-water mark, and the high-water mark
is at most the slot count. -/
def HdrInv (sizeT hdrSize : Nat) (h : BlockHdr) : Prop :=
  (∀ j ∈ h.used, j < h.nextEmpty) ∧
  h.prevEmpty ≤ h.nextEmpty ∧
  h.nextEmpty ≤ blockLen sizeT hdrSize

instance (sizeT hdrSize : Nat) (h : BlockHdr) : Decidable (HdrInv sizeT hdrSize h) := by
  unfold HdrInv
  infer_instance

/-- Structural invariant of an allocator state: every block header
satisfies its invariant, the live block list is never empty, and every
live-list entry names a created block. -/
def StInv (sizeT hdrSize : Nat) (s : FlatState) : Prop :=
  (∀ h ∈ s.blocks, HdrInv sizeT hdrSize h) ∧
  s.blockList ≠ [] ∧
  (∀ c ∈ s.blockList, c < s.blocks.length)

/-- Table invariant, which holds as long as no block has been physically
released: the block pointer table lists the creation numbers 0,1,...,n-1
in order, the live list has one entry per created block, and the k-th
created block carries creation-order index k. -/
def TblInv (s : FlatState) : Prop :=
  s.blockPtrs = List.range s.blocks.length ∧
  s.blockList.length = s.blocks.length ∧
  ∀ (k : Nat) (h : BlockHdr), s.blocks[k]? = some h → h.blockIdx = k

/-- States reachable from a fresh FlatAllocator through allocate and
deallocate calls none of which physically released a block (deallocate
kept the live block list intact). -/
inductive FlatReachNR (sizeT hdrSize : Nat) : FlatState → Prop where
  | init : FlatReachNR sizeT hdrSize flatInit
  | alloc {s s' : FlatState} {p : Nat} :
      FlatReachNR sizeT hdrSize s →
      flatAllocate sizeT hdrSize s = some (s', p) →
      FlatReachNR sizeT hdrSize s'
  | dealloc {s s' : FlatState} {q : Nat} :
      FlatReachNR sizeT hdrSize s →
      flatDeallocate sizeT hdrSize s q = some s' →
      s'.blockList.length = s.blockList.length →
      FlatReachNR sizeT hdrSize s'

/-- A pointer issued by some allocate call along a release-free history
ending in the given state. -/
inductive FlatIssuedNR (sizeT hdrSize : Nat) : FlatState → Nat → Prop where
  | here {s s' : FlatState} {p : Nat} :
      FlatReachNR sizeT hdrSize s →
      flatAllocate sizeT hdrSize s = some (s', p) →
      FlatIssuedNR sizeT hdrSize s' p
  | alloc {s s' : FlatState} {p q : Nat} :
      FlatIssuedNR sizeT hdrSize s p →
      flatAllocate sizeT hdrSize s = some (s', q) →
      FlatIssuedNR sizeT hdrSize s' p
  | dealloc {s s' : FlatState} {p q : Nat} :
      FlatIssuedNR sizeT hdrSize s p →
      flatDeallocate sizeT hdrSize s q = some s' →
      s'.blockList.length = s.blockList.length →
      FlatIssuedNR sizeT hdrSize s' p

/-- A history that triggers the creation-index aliasing: with sizeof(T)
= 10000 and header size 32 a block holds 2 slots.  Fill the first block
with two allocations, allocate once more (this creates block 1), free
that last object (block 1 becomes empty and, being current with two
blocks live, is physically released), then allocate again: the allocation
creates a third block whose creation-order index is computed from the
shrunken live-list length. -/
def aliasState : Option (FlatState × Nat) :=
  (flatAllocate 10000 32 flatInit).bind fun r1 =>
  (flatAllocate 10000 32 r1.1).bind fun r2 =>
  (flatAllocate 10000 32 r2.1).bind fun r3 =>
  (flatDeallocate 10000 32 r3.1 r3.2).bind fun s4 =>
  flatAllocate 10000 32 s4

/-- The dense-liveness scenario of claim C4 with sizeof(T) = 4096 and
header size 32 (6 slots per block): five emplace calls on a fresh heap,
then erase of the object at index 2. -/
def scenarioHeap : Option FlatHeapSt :=
  (heapEmplace 4096 32 freshHeap).bind fun r1 =>
  (heapEmplace 4096 32 r1.1).bind fun r2 =>
  (heapEmplace 4096 32 r2.1).bind fun r3 =>
  (heapEmplace 4096 32 r3.1).bind fun r4 =>
  (heapEmplace 4096 32 r4.1).bind fun r5 =>
  heapEraseIdx 4096 32 r5.1 2

end Flat

end MPV

namespace MPV

namespace Flat

/-- Characterisation of the size_t decrement: for realistic values the
wrap-around branch is unreachable. -/
theorem szsub1_eq_iff (n i : Nat) (hn : n < SZ) (hi : i + 1 < SZ) :
    szsub1 n = i ↔ n = i + 1 := by
  have hSZ : 0 < SZ := by decide
  rcases n with _ | m
  · have h0 : szsub1 0 = SZ - 1 := by
      have h1 : (0 + (SZ - 1)) % SZ = SZ - 1 := Nat.mod_eq_of_lt (by omega)
      simp only [szsub1]
      exact h1
    rw [h0]
    omega
  · have : szsub1 (m + 1) = m := by
      have h1 : m + 1 + (SZ - 1) = m + SZ := by omega
      have h2 : (m + SZ) % SZ = m % SZ := by
        simp
      have h3 : m % SZ = m := Nat.mod_eq_of_lt (by omega)
      simp [szsub1, h1, h2, h3]
    rw [this]
    omega

end Flat

end MPV

namespace MPV

namespace Flat

/-- C5: FlatAllocator::Block::allocate follows exactly the specified
steps: take the candidate as the chosen slot; extend the high-water mark
by one when the candidate equals it; advance the candidate by exactly one
position when that next position is within the (updated) high-water mark
and unoccupied, otherwise reset it to the high-water mark; finally mark
the chosen slot occupied and return it. -/
theorem block_allocate_follows_spec (h : BlockHdr) :
    blockAllocate h = blockAllocateSpec h := by
  unfold blockAllocate blockAllocateSpec
  simp only [Nat.lt_iff_add_one_le]

/-- C6 counterexample: in the source the candidate-minimum update is
unconditional, not restricted to the non-shrinking case.  The header
reached by a single allocation on a fresh block (nextEmpty = 1,
prevEmpty = 1, slot 0 occupied) distinguishes the two: erasing slot 0
shrinks the high-water mark to 0 and the code also lowers prevEmpty to 0,
while the claimed step would leave prevEmpty at 1. -/
theorem block_erase_min_update_cex :
    (blockAllocate ⟨0, 0, 0, ∅⟩).1 = ⟨0, 1, 1, {0}⟩ ∧
    eraseHdr ⟨0, 1, 1, {0}⟩ 0 ≠ eraseHdrClaim ⟨0, 1, 1, {0}⟩ 0 ∧
    (eraseHdr ⟨0, 1, 1, {0}⟩ 0).prevEmpty = 0 ∧
    (eraseHdrClaim ⟨0, 1, 1, {0}⟩ 0).prevEmpty = 1 := by
  refine ⟨by decide, by decide, by decide, by decide⟩

/-- C6 amended: Block::erase clears slot i's occupancy bit, shrinks the
high-water mark to i exactly when i was the last slot below it, and in
both cases (unconditionally) sets the candidate cursor to the minimum of
its current value and i. -/
theorem block_erase_spec (h : BlockHdr) (i : Nat)
    (hn : h.nextEmpty < SZ) (hi : i + 1 < SZ) :
    eraseHdr h i =
      ⟨h.blockIdx,
       if h.nextEmpty = i + 1 then i else h.nextEmpty,
       min h.prevEmpty i,
       h.used.erase i⟩ := by
  by_cases hc : h.nextEmpty = i + 1
  · have hc2 : szsub1 h.nextEmpty = i := (szsub1_eq_iff h.nextEmpty i hn hi).2 hc
    rw [hc] at hc2
    simp [eraseHdr, hc, hc2]
  · have hc2 : ¬ szsub1 h.nextEmpty = i := fun hh =>
      hc ((szsub1_eq_iff h.nextEmpty i hn hi).1 hh)
    simp [eraseHdr, hc, hc2]

/-- Witness for the amended C6 statement at the concrete header of the
counterexample. -/
theorem block_erase_spec_witness :
    ((⟨0, 1, 1, {0}⟩ : BlockHdr).nextEmpty < SZ) ∧ ((0 : Nat) + 1 < SZ) ∧
    eraseHdr ⟨0, 1, 1, {0}⟩ 0 = ⟨0, 0, 0, ∅⟩ := by
  refine ⟨by decide, by decide, ?_⟩
  have h1 := block_erase_spec ⟨0, 1, 1, {0}⟩ 0 (by decide) (by decide)
  rw [h1]
  decide

/-- C10: for FlatItr cursors over two different allocator instances,
equality, inequality, less-than and greater-than all answer false while
the derived less-or-equal and greater-or-equal answer true; in
particular operator!= is not the logical negation of operator==. -/
theorem flatitr_cross_allocator_compare (a b : FlatItrM) (hab : a.alloc ≠ b.alloc) :
    itrEqB a b = false ∧ itrNeB a b = false ∧ itrLtB a b = false ∧
    itrGtB a b = false ∧ itrLeB a b = true ∧ itrGeB a b = true ∧
    itrNeB a b ≠ !(itrEqB a b) := by
  have hd : decide (a.alloc = b.alloc) = false := decide_eq_false hab
  simp [itrEqB, itrNeB, itrLtB, itrGtB, itrLeB, itrGeB, hd]

/-- Witness for C10 at two concrete cursors over distinct allocator
instances. -/
theorem flatitr_cross_allocator_compare_witness :
    ((⟨0, 0⟩ : FlatItrM).alloc ≠ (⟨1, 0⟩ : FlatItrM).alloc) ∧
    (itrEqB ⟨0, 0⟩ ⟨1, 0⟩ = false ∧ itrNeB ⟨0, 0⟩ ⟨1, 0⟩ = false ∧
     itrLtB ⟨0, 0⟩ ⟨1, 0⟩ = false ∧ itrGtB ⟨0, 0⟩ ⟨1, 0⟩ = false ∧
     itrLeB ⟨0, 0⟩ ⟨1, 0⟩ = true ∧ itrGeB ⟨0, 0⟩ ⟨1, 0⟩ = true ∧
     itrNeB ⟨0, 0⟩ ⟨1, 0⟩ ≠ !(itrEqB ⟨0, 0⟩ ⟨1, 0⟩)) :=
  ⟨by decide, flatitr_cross_allocator_compare ⟨0, 0⟩ ⟨1, 0⟩ (by decide)⟩

/-- C9 (code bug): after FlatHeap::clear the issued count is 0 as
specified, but the next emplace dies on an out-of-range write of the
presence bit.  clear sets the bit count of the presence bitset to 0, so
emplace re-resizes it to 0 * 2 = 0 bits (a zero-byte buffer) and then
writes bit 0 out of bounds.  On a fresh heap (no clear) the same emplace
succeeds. -/
theorem flatheap_clear_emplace_oob :
    heapSize (heapClear freshHeap) = 0 ∧
    heapEmplace 4096 32 (heapClear freshHeap) = none ∧
    (heapEmplace 4096 32 freshHeap).isSome = true := by
  refine ⟨by decide, by decide, by decide⟩

/-- C4: on a fresh Flat heap, after five emplace calls and erase of the
object at index 2, contains(2) is false, contains is true at 0, 1, 3 and
4, the issued count is still 5, iterating the range 0..issuedCount visits
exactly the positions 0, 1, 2, 3, 4 (the erased index 2 is not skipped),
and dereferencing every visited position, index 2 included, raises
nothing. -/
theorem flatheap_dense_liveness_scenario :
    (scenarioHeap.bind fun h => heapContains h 2) = some false ∧
    (scenarioHeap.bind fun h => heapContains h 0) = some true ∧
    (scenarioHeap.bind fun h => heapContains h 1) = some true ∧
    (scenarioHeap.bind fun h => heapContains h 3) = some true ∧
    (scenarioHeap.bind fun h => heapContains h 4) = some true ∧
    (scenarioHeap.map fun h => heapSize h) = some 5 ∧
    (scenarioHeap.map fun h => List.range (heapSize h)) = some [0, 1, 2, 3, 4] ∧
    (scenarioHeap.map fun h =>
      (List.range (heapSize h)).all fun i => (flatGetPtr 4096 32 h.alloc i).isSome) = some true := by
  refine ⟨by decide, by decide, by decide, by decide, by decide, by decide, by decide, by decide⟩

/-- C1 counterexample: along a legal allocate/deallocate history the
round-trip fails for a live pointer.  With 2 slots per block, filling
block 0, allocating into block 1, freeing that object (which releases
block 1) and allocating again creates a block whose creation-order index
aliases block 1; the pointer just returned by allocate (address 65568,
block 2) translates through getIdx and getPtr to 32800, a slot of the
released block 1. -/
theorem flat_roundtrip_cex :
    (aliasState.map fun r => r.2) = some 65568 ∧
    (aliasState.bind fun r => (flatGetIdx 10000 32 r.1 r.2).bind (flatGetPtr 10000 32 r.1)) =
      some 32800 ∧
    (32800 : Nat) ≠ 65568 := by
  refine ⟨by decide, by decide, by decide⟩

/-- C7 counterexample: after the active block is physically released, the
next created block is assigned creation-order index 1 - an index already
carried by the second created block - while being appended at table
position 2, so the block table no longer refers to it at its
creation-order index. -/
theorem flat_blocktable_alias_cex :
    (aliasState.map fun r => r.1.blocks.map BlockHdr.blockIdx) = some [0, 1, 1] ∧
    (aliasState.map fun r => r.1.blockPtrs) = some [0, 1, 2] ∧
    (aliasState.map fun r => r.1.blockList) = some [2, 0] := by
  refine ⟨by decide, by decide, by decide⟩

end Flat

end MPV

namespace MPV

/-- C8: the size checks of both engines are the static assertions
sizeof(T) <= chunkSize - sizeof(Chunk) (Pool, in Chunk::make) and
blockTotalBytes >= sizeof(T) + sizeof(BlockHeader) together with
_blockLen > 0 (Flat, at class level).  A type violating them is rejected
by the guard in every state, before any object is built; a type
satisfying them is never stopped by the guard, in any state: the check
depends only on the object size, never on the execution. -/
theorem size_check_static (S sizeT hdrSize : Nat) (s : Pool.PoolState) (t : Flat.FlatState) :
    (¬ S ≤ Pool.chunkSize - Pool.chunkHdr → Pool.poolMakeChecked S s = none) ∧
    (S ≤ Pool.chunkSize - Pool.chunkHdr → Pool.poolMakeChecked S s = Pool.poolMake S s) ∧
    (¬ Flat.flatFits sizeT hdrSize → Flat.flatAllocateChecked sizeT hdrSize t = none) ∧
    (Flat.flatFits sizeT hdrSize →
      Flat.flatAllocateChecked sizeT hdrSize t = Flat.flatAllocate sizeT hdrSize t) := by
  refine ⟨fun h => ?_, fun h => ?_, fun h => ?_, fun h => ?_⟩ <;>
    simp [Pool.poolMakeChecked, Flat.flatAllocateChecked, h]

/-- Witness for C8: a 9000-byte object is rejected by the Pool guard in
the initial state while a 100-byte object passes; a 40000-byte object is
rejected by the Flat guard while a 4096-byte one passes. -/
theorem size_check_static_witness :
    Pool.poolMakeChecked 9000 Pool.poolInit = none ∧
    Pool.poolMakeChecked 100 Pool.poolInit = Pool.poolMake 100 Pool.poolInit ∧
    Flat.flatAllocateChecked 40000 32 Flat.flatInit = none ∧
    Flat.flatAllocateChecked 4096 32 Flat.flatInit = Flat.flatAllocate 4096 32 Flat.flatInit :=
  ⟨(size_check_static 9000 40000 32 Pool.poolInit Flat.flatInit).1 (by decide),
   (size_check_static 100 4096 32 Pool.poolInit Flat.flatInit).2.1 (by decide),
   (size_check_static 9000 40000 32 Pool.poolInit Flat.flatInit).2.2.1 (by decide),
   (size_check_static 100 4096 32 Pool.poolInit Flat.flatInit).2.2.2 (by decide)⟩

end MPV

namespace MPV

namespace Pool

/-- C2 counterexample: both halves of the claimed advance behaviour fail
on the code.  First, the source advances on reaching capacity, not only
on exceeding it: in the fresh pool the current chunk carries write
cursor 24 (the header size) and an object of 8168 bytes fits exactly
(24 + 8168 = 8192, the chunk capacity, which is not exceeded), yet make
advances to chunk 1 instead of constructing in chunk 0.  Second, the
advance need not move away from curChunk: the insert-before reinsertion
of an emptied current chunk runs chunk->next = curChunk with
chunk == curChunk, so a pool whose current chunk 0 links to itself is
reachable; from such a state (cursor 32 after a small allocation) a
make of 8168 bytes strictly exceeds capacity (32 + 8168 > 8192), takes
the advance branch, and leaves curChunk at chunk 0. -/
theorem pool_make_boundary_advance_cex :
    poolInit.curChunk = some 0 ∧
    (poolInit.chunks[0]?).map Chunk.headOff = some 24 ∧
    24 + 8168 ≤ chunkSize ∧
    (poolMake 8168 poolInit).map (fun r => r.1.curChunk) = some (some 1) ∧
    chunkSize < 32 + 8168 ∧
    (poolMake 8168 ⟨poolInit.chunks.set 0 ⟨32, some 0, 32⟩, some 0⟩).map
      (fun r => r.1.curChunk) = some (some 0) := by
  refine ⟨by decide, by decide, by decide, by decide, by decide, by decide⟩

/-- allocBlock always grows the chunk table by exactly chunksPerBlock
chunks, whichever branch links the old current chunk. -/
theorem length_allocBlock (s : PoolState) :
    (allocBlock s).chunks.length = s.chunks.length + chunksPerBlock := by
  simp only [allocBlock]
  rcases s.curChunk with _ | cu
  · simp
  · rcases h : (s.chunks ++ (List.range chunksPerBlock).map fun k =>
        ({ headOff := chunkHdr
           next := if k + 1 = chunksPerBlock then none else some (s.chunks.length + k + 1)
           used := chunkHdr } : Chunk))[cu]? with _ | ch2
    · simp [h]
    · simp [h]

/-- C2 amended: make switches the allocation target exactly when the
write cursor plus the object size reaches or exceeds chunkSize (the
source compares with >=, not >).  When the sum stays strictly below,
the object is constructed at the current write cursor, the cursor and
the occupied count both grow by S, and curChunk is unchanged; when it
reaches or exceeds, curChunk is re-targeted to the linked next free
chunk if one exists - which is curChunk itself when the free-list
threading has linked the current chunk to itself - and otherwise to
the first chunk of a freshly carved block of chunksPerBlock chunks. -/
theorem pool_make_advance_spec (S : Nat) (s : PoolState) (cu : Nat) (ch : Chunk)
    (hcur : s.curChunk = some cu) (hch : s.chunks[cu]? = some ch)
    (hnx : ∀ nx : Nat, ch.next = some nx → nx < s.chunks.length) :
    (ch.headOff + S < chunkSize →
      poolMake S s =
        some ({ s with
                  chunks := s.chunks.set cu
                    ({ ch with headOff := ch.headOff + S, used := ch.used + S }) },
              cu, ch.headOff)) ∧
    (chunkSize ≤ ch.headOff + S →
      ∃ s2 p, poolMake S s = some (s2, p) ∧
        ((∃ nx : Nat, ch.next = some nx ∧ s2.curChunk = some nx) ∨
         (ch.next = none ∧ s2.curChunk = some s.chunks.length ∧
          s2.chunks.length = s.chunks.length + chunksPerBlock))) := by
  have hculen : cu < s.chunks.length := (List.getElem?_eq_some_iff.1 hch).1
  constructor
  · intro hlt
    have hnle : ¬ chunkSize ≤ ch.headOff + S := by omega
    simp [poolMake, hcur, hch, hnle, chunkConstruct]
  · intro hge
    cases hn : ch.next with
    | none =>
      have hmk : poolMake S s = chunkConstruct S (allocBlock s) := by
        simp [poolMake, hcur, hch, hge, hn]
      set n := s.chunks.length with hndef
      have hcur2 : (allocBlock s).curChunk = some n := by
        simp [allocBlock]
      have hch2 : (allocBlock s).chunks[n]? =
          some ({ headOff := chunkHdr, next := some (n + 1), used := chunkHdr } : Chunk) := by
        have hgap : (s.chunks ++ (List.range chunksPerBlock).map fun k =>
            ({ headOff := chunkHdr
               next := if k + 1 = chunksPerBlock then none else some (n + k + 1)
               used := chunkHdr } : Chunk))[cu]? = some ch := by
          rw [List.getElem?_append_left hculen]
          exact hch
        simp only [allocBlock, hcur, hgap]
        rw [List.getElem?_set_ne (by omega)]
        rw [List.getElem?_append_right (by omega)]
        simp [chunksPerBlock]
      have hcc : chunkConstruct S (allocBlock s) =
          some ({ (allocBlock s) with
                    chunks := (allocBlock s).chunks.set n
                      ({ headOff := chunkHdr + S, next := some (n + 1), used := chunkHdr + S }) },
                n, chunkHdr) := by
        simp [chunkConstruct, hcur2, hch2]
      refine ⟨_, _, by rw [hmk, hcc], Or.inr ⟨rfl, ?_, ?_⟩⟩
      · rfl
      · show ((allocBlock s).chunks.set n
            ({ headOff := chunkHdr + S, next := some (n + 1), used := chunkHdr + S } : Chunk)).length =
          s.chunks.length + chunksPerBlock
        rw [List.length_set]
        exact length_allocBlock s
    | some nx =>
      have hmk : poolMake S s = chunkConstruct S { s with curChunk := some nx } := by
        simp [poolMake, hcur, hch, hge, hn]
      have hnxlen : nx < s.chunks.length := hnx nx hn
      obtain ⟨chnx, hchnx⟩ : ∃ c2, s.chunks[nx]? = some c2 := by
        rcases hval : s.chunks[nx]? with _ | c2
        · rw [List.getElem?_eq_none_iff] at hval
          omega
        · exact ⟨c2, rfl⟩
      have hcc : chunkConstruct S { s with curChunk := some nx } =
          some ({ s with
                    curChunk := some nx,
                    chunks := s.chunks.set nx
                      ({ chnx with headOff := chnx.headOff + S, used := chnx.used + S }) },
                nx, chnx.headOff) := by
        simp [chunkConstruct, hchnx]
      exact ⟨_, _, by rw [hmk, hcc], Or.inl ⟨nx, rfl, rfl⟩⟩

/-- Witness for the amended C2 statement: in the fresh pool an 8-byte
object is constructed in place at cursor 24 of chunk 0 and the cursor and
occupied count both become 32. -/
theorem pool_make_advance_spec_witness :
    poolInit.curChunk = some 0 ∧
    ((⟨24, some 1, 24⟩ : Chunk).headOff + 8 < chunkSize) ∧
    poolMake 8 poolInit =
      some ({ poolInit with
                chunks := poolInit.chunks.set 0 ({ headOff := 32, next := some 1, used := 32 } : Chunk) },
            0, 24) := by
  refine ⟨by decide, by decide, ?_⟩
  have h := (pool_make_advance_spec 8 poolInit 0 ⟨24, some 1, 24⟩ (by decide) (by decide)
      (fun nx hx => by cases hx; decide)).1 (by decide)
  exact h.trans (by decide)

end Pool

end MPV

namespace MPV

namespace Flat

/-- The slot count of a block is far below the size_t modulus. -/
theorem blockLen_lt_SZ (sizeT hdrSize : Nat) : blockLen sizeT hdrSize < SZ := by
  have h1 : (blockTotalBytes - hdrSize) / sizeT ≤ blockTotalBytes - hdrSize :=
    Nat.div_le_self _ _
  have h2 : blockTotalBytes - hdrSize ≤ blockTotalBytes := Nat.sub_le _ _
  have h3 : blockTotalBytes < SZ := by decide
  unfold blockLen
  omega

/-- Block::allocate preserves the header invariant on a non-full block
and returns an in-range slot; the creation-order index is untouched. -/
theorem hdrInv_blockAllocate {sizeT hdrSize : Nat} {h : BlockHdr}
    (hInv : HdrInv sizeT hdrSize h) (hne : h.nextEmpty < blockLen sizeT hdrSize) :
    HdrInv sizeT hdrSize (blockAllocate h).1 ∧
    (blockAllocate h).2 < blockLen sizeT hdrSize ∧
    (blockAllocate h).1.blockIdx = h.blockIdx := by
  obtain ⟨hu, hpe, hneL⟩ := hInv
  unfold blockAllocate HdrInv
  dsimp only
  split_ifs with c1 c2 c2
  all_goals
    refine ⟨⟨fun j hj => ?_, by omega, by omega⟩, by omega, rfl⟩
  all_goals
    rcases Finset.mem_insert.1 hj with rfl | hj2
  · omega
  · have := hu j hj2; omega
  · omega
  · have := hu j hj2; omega
  · omega
  · have := hu j hj2; omega
  · omega
  · have := hu j hj2; omega

/-- Block::erase preserves the header invariant. -/
theorem hdrInv_eraseHdr {sizeT hdrSize : Nat} {h : BlockHdr}
    (hInv : HdrInv sizeT hdrSize h) (i : Nat) (hi : i + 1 < SZ) :
    HdrInv sizeT hdrSize (eraseHdr h i) := by
  obtain ⟨hu, hpe, hneL⟩ := hInv
  have hnSZ : h.nextEmpty < SZ := lt_of_le_of_lt hneL (blockLen_lt_SZ sizeT hdrSize)
  unfold eraseHdr HdrInv
  dsimp only
  by_cases hc : szsub1 h.nextEmpty = i
  · have hne : h.nextEmpty = i + 1 := (szsub1_eq_iff h.nextEmpty i hnSZ hi).1 hc
    rw [if_pos hc]
    refine ⟨fun j hj => ?_, by omega, by omega⟩
    obtain ⟨hji, hjm⟩ := Finset.mem_erase.1 hj
    have := hu j hjm
    omega
  · rw [if_neg hc]
    refine ⟨fun j hj => ?_, by omega, by omega⟩
    obtain ⟨hji, hjm⟩ := Finset.mem_erase.1 hj
    exact hu j hjm

/-- When Block::erase leaves the high-water mark at zero, the block is
completely empty: no occupied slot remains. -/
theorem eraseHdr_empty {sizeT hdrSize : Nat} {h : BlockHdr}
    (hInv : HdrInv sizeT hdrSize h) (i : Nat)
    (h0 : (eraseHdr h i).nextEmpty = 0) : (eraseHdr h i).used = ∅ := by
  obtain ⟨hu, hpe, hneL⟩ := hInv
  have hnSZ : h.nextEmpty < SZ := lt_of_le_of_lt hneL (blockLen_lt_SZ sizeT hdrSize)
  unfold eraseHdr at h0 ⊢
  dsimp only at h0 ⊢
  by_cases hc : szsub1 h.nextEmpty = i
  · rw [if_pos hc] at h0
    subst h0
    have hne : h.nextEmpty = 0 + 1 := (szsub1_eq_iff h.nextEmpty 0 hnSZ (by decide)).1 hc
    refine Finset.eq_empty_of_forall_not_mem fun j hj => ?_
    obtain ⟨hji, hjm⟩ := Finset.mem_erase.1 hj
    have := hu j hjm
    omega
  · rw [if_neg hc] at h0
    refine Finset.eq_empty_of_forall_not_mem fun j hj => ?_
    obtain ⟨hji, hjm⟩ := Finset.mem_erase.1 hj
    have := hu j hjm
    omega

/-- Facts about newBlock: the created block becomes current, sits at
table position equal to the old block count, and the count grows by one. -/
theorem flatNewBlock_facts (s : FlatState) :
    (flatNewBlock s).blockList.head? = some s.blocks.length ∧
    (flatNewBlock s).blocks[s.blocks.length]? =
      some ⟨s.blockList.length, 0, 0, ∅⟩ ∧
    (flatNewBlock s).blocks.length = s.blocks.length + 1 := by
  refine ⟨rfl, ?_, by simp [flatNewBlock]⟩
  simp only [flatNewBlock]
  rw [List.getElem?_append_right (le_refl _)]
  simp

/-- newBlock preserves both invariants as long as no block was ever
physically released. -/
theorem flatNewBlock_inv {sizeT hdrSize : Nat} {s : FlatState}
    (hSt : StInv sizeT hdrSize s) (hTbl : TblInv s) :
    StInv sizeT hdrSize (flatNewBlock s) ∧ TblInv (flatNewBlock s) := by
  obtain ⟨hAll, hNe, hBnd⟩ := hSt
  obtain ⟨hPtr, hLen, hIdx⟩ := hTbl
  constructor
  · refine ⟨fun h hm => ?_, by simp [flatNewBlock], fun c hc => ?_⟩
    · have hm2 : h ∈ s.blocks ∨ h = ⟨s.blockList.length, 0, 0, ∅⟩ := by
        simpa [flatNewBlock] using hm
      rcases hm2 with hm2 | rfl
      · exact hAll h hm2
      · exact ⟨fun j hj => absurd hj (Finset.not_mem_empty j), Nat.le_refl 0, Nat.zero_le _⟩
    · have hlen2 : (flatNewBlock s).blocks.length = s.blocks.length + 1 := by
        simp [flatNewBlock]
      rcases (by simpa [flatNewBlock] using hc : c = s.blocks.length ∨ c ∈ s.blockList) with
        rfl | hc2
      · omega
      · have := hBnd c hc2
        omega
  · refine ⟨?_, ?_, fun k h hk => ?_⟩
    · have hlen2 : (flatNewBlock s).blocks.length = s.blocks.length + 1 := by
        simp [flatNewBlock]
      show s.blockPtrs ++ [s.blocks.length] = List.range (flatNewBlock s).blocks.length
      rw [hPtr, hlen2]
      simp [List.range_succ]
    · simp [flatNewBlock, hLen]
    · simp only [flatNewBlock] at hk
      rcases Nat.lt_trichotomy k s.blocks.length with hlt | heq | hgt
      · rw [List.getElem?_append_left hlt] at hk
        exact hIdx k h hk
      · subst heq
        rw [List.getElem?_append_right (le_refl _)] at hk
        simp only [Nat.sub_self] at hk
        have : h = ⟨s.blockList.length, 0, 0, ∅⟩ := by
          simpa using hk.symm
        rw [this]
        exact hLen
      · rw [List.getElem?_append_right (by omega)] at hk
        have : (([⟨s.blockList.length, 0, 0, ∅⟩] : List BlockHdr))[k - s.blocks.length]? = none := by
          rw [List.getElem?_eq_none_iff]
          simp
          omega
        rw [this] at hk
        cases hk

end Flat

end MPV

namespace MPV

namespace Flat

/-- Allocating in the current (non-full) block succeeds, preserves both
invariants, keeps the block structure, and returns a pointer to an
in-range slot of the current block. -/
theorem allocCur_inv {sizeT hdrSize : Nat} {s : FlatState} {cu : Nat} {h : BlockHdr}
    (hSt : StInv sizeT hdrSize s) (hTbl : TblInv s)
    (hc : s.blockList.head? = some cu) (hh : s.blocks[cu]? = some h)
    (hne : h.nextEmpty < blockLen sizeT hdrSize) :
    ∃ s2 i, allocCur sizeT hdrSize s = some (s2, ptrOf sizeT hdrSize cu i) ∧
      StInv sizeT hdrSize s2 ∧ TblInv s2 ∧
      s2.blocks.length = s.blocks.length ∧
      s2.blockList = s.blockList ∧ s2.blockPtrs = s.blockPtrs ∧
      i < blockLen sizeT hdrSize ∧ cu < s.blocks.length := by
  obtain ⟨hAll, hNe, hBnd⟩ := hSt
  obtain ⟨hPtr, hLen, hIdx⟩ := hTbl
  have hcu : cu < s.blocks.length := (List.getElem?_eq_some_iff.1 hh).1
  have hmem : h ∈ s.blocks := List.getElem?_mem hh
  obtain ⟨hInv2, hidx, hbidx⟩ := hdrInv_blockAllocate (hAll h hmem) hne
  refine ⟨{ s with blocks := s.blocks.set cu (blockAllocate h).1 }, (blockAllocate h).2,
    ?_, ⟨fun h2 hm => ?_, hNe, ?_⟩, ⟨?_, ?_, fun k h2 hk => ?_⟩,
    List.length_set _ _ _, rfl, rfl, hidx, hcu⟩
  · simp only [allocCur, hc, hh]
  · rcases List.mem_or_eq_of_mem_set hm with hm2 | rfl
    · exact hAll h2 hm2
    · exact hInv2
  · intro c hcm
    rw [List.length_set]
    exact hBnd c hcm
  · show s.blockPtrs = List.range (s.blocks.set cu (blockAllocate h).1).length
    rw [List.length_set]
    exact hPtr
  · show s.blockList.length = (s.blocks.set cu (blockAllocate h).1).length
    rw [List.length_set]
    exact hLen
  · by_cases hkc : cu = k
    · subst hkc
      rw [List.getElem?_set_self hcu] at hk
      have : h2 = (blockAllocate h).1 := by
        injection hk.symm
      rw [this, hbidx]
      exact hIdx cu h hh
    · rw [List.getElem?_set_ne hkc] at hk
      exact hIdx k h2 hk

/-- FlatAllocator::allocate, from an invariant state of a release-free
history: it succeeds, preserves the invariants, never shrinks the set of
created blocks, and returns the address of an in-range slot of a created
block. -/
theorem flatAllocate_inv {sizeT hdrSize : Nat} {s s2 : FlatState} {p : Nat}
    (hSt : StInv sizeT hdrSize s) (hTbl : TblInv s)
    (hbl : 1 ≤ blockLen sizeT hdrSize)
    (hal : flatAllocate sizeT hdrSize s = some (s2, p)) :
    StInv sizeT hdrSize s2 ∧ TblInv s2 ∧ s.blocks.length ≤ s2.blocks.length ∧
    ∃ c i, p = ptrOf sizeT hdrSize c i ∧ c < s2.blocks.length ∧
      i < blockLen sizeT hdrSize := by
  rcases hbl2 : s.blockList with _ | ⟨cu, t⟩
  · exact absurd hbl2 hSt.2.1
  have hc : s.blockList.head? = some cu := by rw [hbl2]; rfl
  have hcu : cu < s.blocks.length := hSt.2.2 cu (by rw [hbl2]; exact List.mem_cons_self cu t)
  obtain ⟨h, hh⟩ : ∃ h, s.blocks[cu]? = some h := by
    rcases hval : s.blocks[cu]? with _ | h
    · rw [List.getElem?_eq_none_iff] at hval
      omega
    · exact ⟨h, rfl⟩
  simp only [flatAllocate, hc, hh] at hal
  by_cases hfull : blockLen sizeT hdrSize ≤ h.nextEmpty
  · rw [if_pos hfull] at hal
    obtain ⟨hSt2, hTbl2⟩ := flatNewBlock_inv hSt hTbl
    obtain ⟨hc2, hh2, hlen2⟩ := flatNewBlock_facts s
    obtain ⟨s3, i, heq, hSt3, hTbl3, hlen3, _, _, hi, hcu3⟩ :=
      allocCur_inv hSt2 hTbl2 hc2 hh2 (by simpa using hbl)
    rw [heq] at hal
    have hps : s3 = s2 ∧ ptrOf sizeT hdrSize s.blocks.length i = p := by
      have h2 := Option.some.inj hal
      exact ⟨congrArg Prod.fst h2, congrArg Prod.snd h2⟩
    obtain ⟨rfl, rfl⟩ := hps
    refine ⟨hSt3, hTbl3, by omega, s.blocks.length, i, rfl, by omega, hi⟩
  · rw [if_neg hfull] at hal
    obtain ⟨s3, i, heq, hSt3, hTbl3, hlen3, _, _, hi, _⟩ :=
      allocCur_inv hSt hTbl hc hh (by omega)
    rw [heq] at hal
    have hps : s3 = s2 ∧ ptrOf sizeT hdrSize cu i = p := by
      have h2 := Option.some.inj hal
      exact ⟨congrArg Prod.fst h2, congrArg Prod.snd h2⟩
    obtain ⟨rfl, rfl⟩ := hps
    refine ⟨hSt3, hTbl3, by omega, cu, i, rfl, by omega, hi⟩

/-- A deallocate call that does not release a block preserves both
invariants and the set of created blocks. -/
theorem flatDeallocate_nr_inv {sizeT hdrSize : Nat} {s s2 : FlatState} {q : Nat}
    (hSt : StInv sizeT hdrSize s) (hTbl : TblInv s)
    (hd : flatDeallocate sizeT hdrSize s q = some s2)
    (hlen : s2.blockList.length = s.blockList.length) :
    StInv sizeT hdrSize s2 ∧ TblInv s2 ∧ s2.blocks.length = s.blocks.length := by
  obtain ⟨hAll, hNe, hBnd⟩ := hSt
  obtain ⟨hPtr, hLen, hIdx⟩ := hTbl
  rcases hbk : s.blocks[q / blockTotalBytes]? with _ | h
  · simp only [flatDeallocate, hbk] at hd
    cases hd
  simp only [flatDeallocate, hbk] at hd
  have hcb : q / blockTotalBytes < s.blocks.length := (List.getElem?_eq_some_iff.1 hbk).1
  have hmem : h ∈ s.blocks := List.getElem?_mem hbk
  set i := (q - (q / blockTotalBytes * blockTotalBytes + hdrSize)) / sizeT with hidef
  have hiB : i + 1 < SZ := by
    have h1 : i ≤ q - (q / blockTotalBytes * blockTotalBytes + hdrSize) := Nat.div_le_self _ _
    have h2 := Nat.div_add_mod q blockTotalBytes
    have h3 : q % blockTotalBytes < blockTotalBytes :=
      Nat.mod_lt q (by decide)
    have h4 : blockTotalBytes * (q / blockTotalBytes) = q / blockTotalBytes * blockTotalBytes := by
      ring
    have h5 : (2 : Nat) * blockTotalBytes < SZ := by decide
    omega
  have hInv2 : HdrInv sizeT hdrSize (eraseHdr h i) := hdrInv_eraseHdr (hAll h hmem) i hiB
  rcases hhd : s.blockList.head? with _ | cu
  · rw [List.head?_eq_none_iff] at hhd
    exact absurd hhd hNe
  rw [hhd] at hd
  dsimp only at hd
  by_cases hrel : q / blockTotalBytes = cu ∧
      1 < s.blockList.length ∧ (eraseHdr h i).nextEmpty = 0
  · rw [if_pos hrel] at hd
    have hlen2 : s2.blockList.length = s.blockList.length - 1 := by
      have : s2 = deleteCurBlock { s with blocks := s.blocks.set (q / blockTotalBytes) (eraseHdr h i) } :=
        (Option.some.inj hd).symm
      rw [this]
      simp [deleteCurBlock]
    have hpos : 0 < s.blockList.length := by
      rcases hbl2 : s.blockList with _ | ⟨x, t⟩
      · exact absurd hbl2 hNe
      · simp [hbl2]
    omega
  · rw [if_neg hrel] at hd
    have hs2 : s2 = { s with blocks := s.blocks.set (q / blockTotalBytes) (eraseHdr h i) } :=
      (Option.some.inj hd).symm
    subst hs2
    refine ⟨⟨fun h2 hm => ?_, hNe, ?_⟩, ⟨?_, ?_, fun k h2 hk => ?_⟩, List.length_set _ _ _⟩
    · rcases List.mem_or_eq_of_mem_set hm with hm2 | rfl
      · exact hAll h2 hm2
      · exact hInv2
    · intro c hcm
      rw [List.length_set]
      exact hBnd c hcm
    · show s.blockPtrs = List.range (s.blocks.set _ _).length
      rw [List.length_set]
      exact hPtr
    · show s.blockList.length = (s.blocks.set _ _).length
      rw [List.length_set]
      exact hLen
    · by_cases hkc : q / blockTotalBytes = k
      · subst hkc
        rw [List.getElem?_set_self hcb] at hk
        have heq2 : h2 = eraseHdr h i := by
          injection hk.symm
        have hbeq : (eraseHdr h i).blockIdx = h.blockIdx := by
          unfold eraseHdr
          rfl
        rw [heq2, hbeq]
        exact hIdx _ h hbk
      · rw [List.getElem?_set_ne hkc] at hk
        exact hIdx k h2 hk

end Flat

end MPV

namespace MPV

namespace Flat

/-- Both invariants hold in every state of a release-free history. -/
theorem reachNR_inv {sizeT hdrSize : Nat} (hbl : 1 ≤ blockLen sizeT hdrSize)
    {s : FlatState} (hr : FlatReachNR sizeT hdrSize s) :
    StInv sizeT hdrSize s ∧ TblInv s := by
  induction hr with
  | init =>
    constructor
    · refine ⟨fun h hm => ?_, by simp [flatInit, flatNewBlock], fun c hc => ?_⟩
      · have hm2 : h = ⟨0, 0, 0, ∅⟩ := by
          simpa [flatInit, flatNewBlock] using hm
        subst hm2
        exact ⟨fun j hj => absurd hj (Finset.not_mem_empty j), Nat.le_refl 0, Nat.zero_le _⟩
      · have hc2 : c = 0 := by
          simpa [flatInit, flatNewBlock] using hc
        subst hc2
        simp [flatInit, flatNewBlock]
    · refine ⟨by simp [flatInit, flatNewBlock, List.range_succ], by simp [flatInit, flatNewBlock],
        fun k h hk => ?_⟩
      rcases k with _ | k
      · have : h = ⟨0, 0, 0, ∅⟩ := by
          simpa [flatInit, flatNewBlock] using hk.symm
        rw [this]
      · have : (flatInit.blocks)[k + 1]? = none := by
          rw [List.getElem?_eq_none_iff]
          simp [flatInit, flatNewBlock]
        rw [this] at hk
        cases hk
  | alloc hr2 hal ih =>
    obtain ⟨h1, h2, _, _⟩ := flatAllocate_inv ih.1 ih.2 hbl hal
    exact ⟨h1, h2⟩
  | dealloc hr2 hd hlen ih =>
    obtain ⟨h1, h2, _⟩ := flatDeallocate_nr_inv ih.1 ih.2 hd hlen
    exact ⟨h1, h2⟩

/-- Every pointer issued along a release-free history names an in-range
slot of a created block, and the final state is itself reachable. -/
theorem issuedNR_spec {sizeT hdrSize : Nat} (hbl : 1 ≤ blockLen sizeT hdrSize)
    {s : FlatState} {p : Nat} (hp : FlatIssuedNR sizeT hdrSize s p) :
    FlatReachNR sizeT hdrSize s ∧
    ∃ c i, p = ptrOf sizeT hdrSize c i ∧ c < s.blocks.length ∧
      i < blockLen sizeT hdrSize := by
  induction hp with
  | here hr hal =>
    refine ⟨FlatReachNR.alloc hr hal, ?_⟩
    obtain ⟨hSt, hTbl⟩ := reachNR_inv hbl hr
    exact (flatAllocate_inv hSt hTbl hbl hal).2.2.2
  | alloc hp2 hal ih =>
    refine ⟨FlatReachNR.alloc ih.1 hal, ?_⟩
    obtain ⟨hSt, hTbl⟩ := reachNR_inv hbl ih.1
    obtain ⟨_, _, hmono, _⟩ := flatAllocate_inv hSt hTbl hbl hal
    obtain ⟨c, i, rfl, hc, hi⟩ := ih.2
    exact ⟨c, i, rfl, by omega, hi⟩
  | dealloc hp2 hd hlen ih =>
    refine ⟨FlatReachNR.dealloc ih.1 hd hlen, ?_⟩
    obtain ⟨hSt, hTbl⟩ := reachNR_inv hbl ih.1
    obtain ⟨_, _, hlen2⟩ := flatDeallocate_nr_inv hSt hTbl hd hlen
    obtain ⟨c, i, rfl, hc, hi⟩ := ih.2
    exact ⟨c, i, rfl, by omega, hi⟩

/-- Index translation round-trips on any state whose block table presents
the creation-order invariant: getIdx followed by getPtr returns the
original slot address. -/
theorem tbl_roundtrip {sizeT hdrSize : Nat} (hst : 1 ≤ sizeT)
    (hbl : 1 ≤ blockLen sizeT hdrSize)
    {s : FlatState} (hTbl : TblInv s) {c i : Nat}
    (hc : c < s.blocks.length) (hi : i < blockLen sizeT hdrSize) :
    (flatGetIdx sizeT hdrSize s (ptrOf sizeT hdrSize c i)).bind (flatGetPtr sizeT hdrSize s) =
      some (ptrOf sizeT hdrSize c i) := by
  have hq2 : 2 ≤ (blockTotalBytes - hdrSize) / sizeT := by
    have hLdef : blockLen sizeT hdrSize = (blockTotalBytes - hdrSize) / sizeT - 1 := rfl
    omega
  have hmul : ((blockTotalBytes - hdrSize) / sizeT) * sizeT ≤ blockTotalBytes - hdrSize :=
    Nat.div_mul_le_self _ _
  have hoff : hdrSize + i * sizeT + sizeT < blockTotalBytes := by
    have hLdef : blockLen sizeT hdrSize = (blockTotalBytes - hdrSize) / sizeT - 1 := rfl
    have h1 : (i + 2) * sizeT ≤ ((blockTotalBytes - hdrSize) / sizeT) * sizeT :=
      Nat.mul_le_mul_right _ (by omega)
    have h2 : (i + 2) * sizeT = i * sizeT + 2 * sizeT := by ring
    omega
  have hdiv : ptrOf sizeT hdrSize c i / blockTotalBytes = c := by
    unfold ptrOf
    have hre : c * blockTotalBytes + hdrSize + i * sizeT =
        blockTotalBytes * c + (hdrSize + i * sizeT) := by ring
    rw [hre, Nat.mul_add_div (by decide)]
    have hz : (hdrSize + i * sizeT) / blockTotalBytes = 0 := Nat.div_eq_of_lt (by omega)
    omega
  have hsub : ptrOf sizeT hdrSize c i - (c * blockTotalBytes + hdrSize) = i * sizeT := by
    unfold ptrOf
    omega
  obtain ⟨h, hh⟩ : ∃ h, s.blocks[c]? = some h := by
    rcases hval : s.blocks[c]? with _ | h
    · rw [List.getElem?_eq_none_iff] at hval
      omega
    · exact ⟨h, rfl⟩
  have hbidx : h.blockIdx = c := hTbl.2.2 c h hh
  have hgi : flatGetIdx sizeT hdrSize s (ptrOf sizeT hdrSize c i) =
      some (c * blockLen sizeT hdrSize + i) := by
    simp only [flatGetIdx, hdiv, hh, hsub]
    rw [hbidx, Nat.mul_div_left i hst]
  rw [hgi]
  have hLpos : 0 < blockLen sizeT hdrSize := hbl
  have hdiv2 : (c * blockLen sizeT hdrSize + i) / blockLen sizeT hdrSize = c := by
    have hre : c * blockLen sizeT hdrSize + i = blockLen sizeT hdrSize * c + i := by ring
    rw [hre, Nat.mul_add_div hLpos]
    have hz : i / blockLen sizeT hdrSize = 0 := Nat.div_eq_of_lt hi
    omega
  have hmod2 : (c * blockLen sizeT hdrSize + i) % blockLen sizeT hdrSize = i := by
    have hre : c * blockLen sizeT hdrSize + i = blockLen sizeT hdrSize * c + i := by ring
    rw [hre, Nat.mul_add_mod]
    exact Nat.mod_eq_of_lt hi
  have hbp : s.blockPtrs[c]? = some c := by
    rw [hTbl.1]
    exact List.getElem?_range hc
  simp only [Option.some_bind, flatGetPtr, hdiv2, hmod2, hbp]

end Flat

end MPV

namespace MPV

namespace Flat

/-- C1 amended: for every pointer obtained from allocate along any
history of allocate and deallocate calls in which no slot-block was ever
physically released, getPtr of getIdx returns the pointer itself, and
this keeps holding as further allocations create additional blocks.
(After a physical release the claim fails: see the counterexample.) -/
theorem flat_roundtrip_noRelease (sizeT hdrSize : Nat) (s : FlatState) (p : Nat)
    (hst : 1 ≤ sizeT) (hbl : 1 ≤ blockLen sizeT hdrSize)
    (hp : FlatIssuedNR sizeT hdrSize s p) :
    (flatGetIdx sizeT hdrSize s p).bind (flatGetPtr sizeT hdrSize s) = some p := by
  obtain ⟨hr, c, i, rfl, hc, hi⟩ := issuedNR_spec hbl hp
  exact tbl_roundtrip hst hbl (reachNR_inv hbl hr).2 hc hi

/-- Witness for the amended C1 statement: the first pointer handed out by
a fresh allocator with 4096-byte objects round-trips. -/
theorem flat_roundtrip_noRelease_witness :
    (1 ≤ 4096) ∧ (1 ≤ blockLen 4096 32) ∧
    (flatGetIdx 4096 32 ⟨[⟨0, 1, 1, {0}⟩], [0], [0]⟩ 32).bind
      (flatGetPtr 4096 32 ⟨[⟨0, 1, 1, {0}⟩], [0], [0]⟩) = some 32 :=
  ⟨by decide, by decide,
   flat_roundtrip_noRelease 4096 32 ⟨[⟨0, 1, 1, {0}⟩], [0], [0]⟩ 32 (by decide) (by decide)
     (FlatIssuedNR.here FlatReachNR.init (by decide))⟩

/-- C7 amended: in every state reachable without any physical block
release, the k-th created block carries creation-order index k and the
append-only block table refers to it at exactly that position; once the
active block has been released, a later newBlock call can alias an
existing index (see the counterexample). -/
theorem flat_blocktable_noRelease (sizeT hdrSize : Nat) (s : FlatState)
    (hbl : 1 ≤ blockLen sizeT hdrSize) (hr : FlatReachNR sizeT hdrSize s)
    (k : Nat) (h : BlockHdr) (hk : s.blocks[k]? = some h) :
    h.blockIdx = k ∧ s.blockPtrs[k]? = some k ∧
    s.blockPtrs[h.blockIdx]? = some k := by
  obtain ⟨hSt, hTbl⟩ := reachNR_inv hbl hr
  have h1 : h.blockIdx = k := hTbl.2.2 k h hk
  have hklen : k < s.blocks.length := (List.getElem?_eq_some_iff.1 hk).1
  have h2 : s.blockPtrs[k]? = some k := by
    rw [hTbl.1]
    exact List.getElem?_range hklen
  exact ⟨h1, h2, by rw [h1]; exact h2⟩

/-- Witness for the amended C7 statement at the fresh allocator. -/
theorem flat_blocktable_noRelease_witness :
    (1 ≤ blockLen 4096 32) ∧ (flatInit.blocks[0]? = some ⟨0, 0, 0, ∅⟩) ∧
    ((⟨0, 0, 0, ∅⟩ : BlockHdr).blockIdx = 0 ∧ flatInit.blockPtrs[0]? = some 0 ∧
     flatInit.blockPtrs[(⟨0, 0, 0, ∅⟩ : BlockHdr).blockIdx]? = some 0) :=
  ⟨by decide, by decide,
   flat_blocktable_noRelease 4096 32 flatInit (by decide) FlatReachNR.init 0 ⟨0, 0, 0, ∅⟩
     (by decide)⟩

/-- C3: deallocate physically releases a block only when, at the moment
of the release, the block is the front (current) block of the block
list, more than one block exists, and the deallocation has just left it
completely empty (high-water mark zero, no occupied slot); every block
other than the front one always survives the call. -/
theorem flat_deallocate_release_only_active (sizeT hdrSize : Nat) (s s2 : FlatState) (p : Nat)
    (hInv : ∀ h ∈ s.blocks, HdrInv sizeT hdrSize h)
    (hd : flatDeallocate sizeT hdrSize s p = some s2) :
    (∀ b ∈ s.blockList, some b ≠ s.blockList.head? → b ∈ s2.blockList) ∧
    (s2.blockList ≠ s.blockList →
      s.blockList.head? = some (p / blockTotalBytes) ∧
      1 < s.blockList.length ∧
      ∃ h2 : BlockHdr, s2.blocks[p / blockTotalBytes]? = some h2 ∧
        h2.nextEmpty = 0 ∧ h2.used = ∅) := by
  rcases hbk : s.blocks[p / blockTotalBytes]? with _ | h
  · simp only [flatDeallocate, hbk] at hd
    cases hd
  simp only [flatDeallocate, hbk] at hd
  have hcb : p / blockTotalBytes < s.blocks.length := (List.getElem?_eq_some_iff.1 hbk).1
  have hmem : h ∈ s.blocks := List.getElem?_mem hbk
  set i := (p - (p / blockTotalBytes * blockTotalBytes + hdrSize)) / sizeT with hidef
  rcases hhd : s.blockList.head? with _ | cu
  · rw [hhd] at hd
    cases hd
  rw [hhd] at hd
  dsimp only at hd
  by_cases hrel : p / blockTotalBytes = cu ∧
      1 < s.blockList.length ∧ (eraseHdr h i).nextEmpty = 0
  · rw [if_pos hrel] at hd
    have hs2 : s2 = deleteCurBlock
        { s with blocks := s.blocks.set (p / blockTotalBytes) (eraseHdr h i) } :=
      (Option.some.inj hd).symm
    subst hs2
    constructor
    · intro b hb hbne
      show b ∈ s.blockList.tail
      have hcons : cu :: s.blockList.tail = s.blockList := List.cons_head?_tail hhd
      rw [← hcons] at hb
      rcases List.mem_cons.1 hb with heq | hb2
      · exact (hbne (by rw [heq])).elim
      · exact hb2
    · intro _
      refine ⟨by rw [hrel.1], hrel.2.1, eraseHdr h i, ?_, hrel.2.2, ?_⟩
      · show (s.blocks.set (p / blockTotalBytes) (eraseHdr h i))[p / blockTotalBytes]? =
          some (eraseHdr h i)
        exact List.getElem?_set_self hcb
      · exact eraseHdr_empty (hInv h hmem) i hrel.2.2
  · rw [if_neg hrel] at hd
    have hs2 : s2 = { s with blocks := s.blocks.set (p / blockTotalBytes) (eraseHdr h i) } :=
      (Option.some.inj hd).symm
    subst hs2
    constructor
    · intro b hb _
      exact hb
    · intro hne
      exact absurd rfl hne

/-- Witness for C3: on a two-block state (block 0 full with slots 0 and
1, block 1 current holding one object), deallocating that object empties
block 1 and releases exactly the front block while block 0 survives. -/
theorem flat_deallocate_release_only_active_witness :
    (∀ h ∈ (⟨[⟨0, 2, 2, {0, 1}⟩, ⟨1, 1, 1, {0}⟩], [1, 0], [0, 1]⟩ : FlatState).blocks,
      HdrInv 10000 32 h) ∧
    flatDeallocate 10000 32 ⟨[⟨0, 2, 2, {0, 1}⟩, ⟨1, 1, 1, {0}⟩], [1, 0], [0, 1]⟩ 32800 =
      some ⟨[⟨0, 2, 2, {0, 1}⟩, ⟨1, 0, 0, ∅⟩], [0], [0, 1]⟩ ∧
    ((∀ b ∈ (⟨[⟨0, 2, 2, {0, 1}⟩, ⟨1, 1, 1, {0}⟩], [1, 0], [0, 1]⟩ : FlatState).blockList,
        some b ≠
          (⟨[⟨0, 2, 2, {0, 1}⟩, ⟨1, 1, 1, {0}⟩], [1, 0], [0, 1]⟩ : FlatState).blockList.head? →
        b ∈ (⟨[⟨0, 2, 2, {0, 1}⟩, ⟨1, 0, 0, ∅⟩], [0], [0, 1]⟩ : FlatState).blockList) ∧
     ((⟨[⟨0, 2, 2, {0, 1}⟩, ⟨1, 0, 0, ∅⟩], [0], [0, 1]⟩ : FlatState).blockList ≠
         (⟨[⟨0, 2, 2, {0, 1}⟩, ⟨1, 1, 1, {0}⟩], [1, 0], [0, 1]⟩ : FlatState).blockList →
       (⟨[⟨0, 2, 2, {0, 1}⟩, ⟨1, 1, 1, {0}⟩], [1, 0], [0, 1]⟩ : FlatState).blockList.head? =
         some (32800 / blockTotalBytes) ∧
       1 < (⟨[⟨0, 2, 2, {0, 1}⟩, ⟨1, 1, 1, {0}⟩], [1, 0], [0, 1]⟩ : FlatState).blockList.length ∧
       ∃ h2 : BlockHdr,
         (⟨[⟨0, 2, 2, {0, 1}⟩, ⟨1, 0, 0, ∅⟩], [0],
             [0, 1]⟩ : FlatState).blocks[32800 / blockTotalBytes]? = some h2 ∧
           h2.nextEmpty = 0 ∧ h2.used = ∅)) :=
  ⟨by decide, by decide,
   flat_deallocate_release_only_active 10000 32
     ⟨[⟨0, 2, 2, {0, 1}⟩, ⟨1, 1, 1, {0}⟩], [1, 0], [0, 1]⟩
     ⟨[⟨0, 2, 2, {0, 1}⟩, ⟨1, 0, 0, ∅⟩], [0], [0, 1]⟩ 32800 (by decide) (by decide)⟩

end Flat

end MPV
